import Mathlib

/-!
Verification development for the Lamb/SH dispersion-curve calculator.

The numeric core is shallowly embedded:

* the raw result matrix and the instability-correction pass
  (`utility_functions/Utilities.py`, `correct_instability`) are modelled over
  `ℚ`-valued matrices `ℕ → ℕ → ℚ` (Python floats idealised as rationals;
  the pass only uses `=`, `<` and the constant `0`, so the order structure
  is all that matters);
* the root sweep (`src/waves/Lamb.py`, `Lamb._solve_disp_eqn`) is embedded
  with the transcendental characteristic function abstracted as
  `f : ℚ → ℚ → Option ℚ` (`none` models a NaN result) and `scipy`'s
  bisection abstracted as an arbitrary function `bisect`;
* the characteristic-function evaluator, the SH closed-form generator and
  the interpolation layer are embedded over `ℝ`/`ℂ` with Mathlib's
  `Real.sqrt`, `Real.pi` and `Complex.tan`.

Python `while` loops are embedded as fuel recursion; the fuel supplied at
every call site dominates the loop bound, so the embedded function agrees
with the source loop (a loop that Python would never exit, e.g. the sweep
with `vp_step <= 0`, is given zero fuel and documented at its definition).
-/

namespace DispCalc

/-- A raw result matrix: row and column indices to a rational value.  Cells
outside the used `(fd_points) × (nmodes+1)` rectangle are irrelevant; the
algorithms below only read and write inside it. -/
abbrev Mat : Type := ℕ → ℕ → ℚ

/-- Pointwise update of one matrix cell, modelling a numpy `corr[r][c] = v`
assignment. -/
def upd (m : Mat) (r c : ℕ) (v : ℚ) : Mat :=
  fun r' c' => if r' = r ∧ c' = c then v else m r' c'

/-- Fuel recursion for the first `while` of `correct_instability`
(`while col[i] == 0 and i < len(col)-1: i += 1`). -/
def firstNZGo (m : Mat) (c L : ℕ) : ℕ → ℕ → ℕ
  | 0, i => i
  | fuel + 1, i => if m i c = 0 ∧ i < L - 1 then firstNZGo m c L fuel (i + 1) else i

/-- Index of the first nonzero entry of column `c` (or `L-1` when the column
is zero up to there), as computed by the first loop of
`correct_instability`. -/
def firstNZ (m : Mat) (c L : ℕ) : ℕ := firstNZGo m c L L 0

/-- First pass of `Utilities.correct_instability`: for every processed
column (`corr.T[n:]`), if the column has a nonzero entry, zero the *next*
column at the row where this column first becomes nonzero (guarded by
`idx < nmodes - n`, a Python `int` comparison, hence the `ℤ` cast). -/
def instabilityPre (L C n : ℕ) (m : Mat) : Mat :=
  (List.range (C - n)).foldl
    (fun acc idx =>
      if ∃ r ∈ List.range L, acc r (idx + n) ≠ 0 then
        (if (idx : ℤ) < (C : ℤ) - 1 - n then
          upd acc (firstNZ acc (idx + n) L) (idx + n + 1) 0
        else acc)
      else acc) m

/-- Fuel recursion for `while col[j] == 0 and j < len(col)-1: j += 1`
inside the second loop of `correct_instability`; returns the stopping
index `j`. -/
def advanceGo (m : Mat) (c L : ℕ) : ℕ → ℕ → ℕ
  | 0, j => j
  | fuel + 1, j => if m j c = 0 ∧ j < L - 1 then advanceGo m c L fuel (j + 1) else j

/-- The rightward shift `corr[j][idx+p] = result[j][idx+p-1]` for
`p = n+1 .. nmodes - idx`, reading from the *original* input matrix
`orig` exactly as the Python code reads `result`. -/
def shiftRow (orig : Mat) (n C idx j : ℕ) (m : Mat) : Mat :=
  (List.range' (n + 1) (C - 1 - idx - n)).foldl
    (fun acc p => upd acc j (idx + p) (orig j (idx + p - 1))) m

/-- One correction step of the second loop: zero `corr[j][idx+n]` and shift
the original row rightward, guarded by the Python `for idx2 in
range(nmodes): if idx == idx2` wrapper (which fires exactly when
`idx < nmodes`). -/
def zeroShift (orig : Mat) (n C idx c j : ℕ) (m : Mat) : Mat :=
  if (idx : ℤ) < (C : ℤ) - 1 then shiftRow orig n C idx j (upd m j c 0) else m

/-- Fuel recursion for the violation `while` of `correct_instability`:
`while (col[i] < col[j] or col[j] == 0) and j < len(col)-1`, advancing over
zeros and zero-shifting entries larger than the anchor `col[i]`. -/
def violGo (orig : Mat) (L C n idx c i : ℕ) : ℕ → ℕ → Mat → Mat
  | 0, _, m => m
  | fuel + 1, j, m =>
    if (m i c < m j c ∨ m j c = 0) ∧ j < L - 1 then
      (if m j c = 0 then violGo orig L C n idx c i fuel (j + 1) m
       else violGo orig L C n idx c i fuel (j + 1) (zeroShift orig n C idx c j m))
    else m

/-- The `if i == len(col)-2: corr[i+1][idx+n] = 0` prefix of one iteration
of the second loop of `correct_instability`. -/
def lastZeroed (L c : ℕ) (m : Mat) (i : ℕ) : Mat :=
  if i + 2 = L then upd m (L - 1) c 0 else m

/-- The anchor part of one iteration of the second loop: if `col[i]` is
nonzero, advance `j` over zeros from `i+1`
(`j = i + 1; if col[j] == 0: while ...`, equivalently `advanceGo` which
stops immediately on a nonzero) and, when `j < len(col)-1`, run the
violation loop (whose entry `if` repeats the loop guard, so it is
subsumed by `violGo`). -/
def anchorStep (orig : Mat) (L C n idx c : ℕ) (m1 : Mat) (i : ℕ) : Mat :=
  if m1 i c ≠ 0 then
    (if advanceGo m1 c L L (i + 1) < L - 1 then
      violGo orig L C n idx c i L (advanceGo m1 c L L (i + 1)) m1
    else m1)
  else m1

/-- Body of one iteration `i` of `for i in range(len(col)-1)` in the second
loop of `correct_instability`: zero the last row when `i == len(col)-2`,
then, if the anchor `col[i]` is nonzero, advance over zeros from `i+1` and
run the violation loop. -/
def stepRow (orig : Mat) (L C n idx c : ℕ) (m : Mat) (i : ℕ) : Mat :=
  anchorStep orig L C n idx c (lastZeroed L c m i) i

/-- Fuel recursion driving `for i in range(len(col)-1)` over one column. -/
def scanGo (orig : Mat) (L C n idx c : ℕ) : ℕ → ℕ → Mat → Mat
  | 0, _, m => m
  | fuel + 1, i, m =>
    if i < L - 1 then scanGo orig L C n idx c fuel (i + 1) (stepRow orig L C n idx c m i)
    else m

/-- The full second-loop pass of `correct_instability` over the column
`idx + n`. -/
def scanCol (orig : Mat) (L C n : ℕ) (m : Mat) (idx : ℕ) : Mat :=
  scanGo orig L C n idx (idx + n) L 0 m

/-- Embedding of `Utilities.correct_instability` on an `L × C` matrix.
`n` is `1` for the symmetric family and `2` for the antisymmetric family
(the Python code derives it from `function.__name__`); `C = nmodes + 1`
counts the `fd` column plus the mode columns. -/
def correct_instability (L C n : ℕ) (result : Mat) : Mat :=
  (List.range (C - n)).foldl (scanCol result L C n) (instabilityPre L C n result)

/-- Python `int()` truncation (toward zero) of a rational. -/
def pyInt (q : ℚ) : ℤ := if 0 ≤ q then ⌊q⌋ else -⌊-q⌋

/-- Embedding of `np.linspace(0, b, N)`: `N` evenly spaced samples from `0`
to `b` inclusive (`[0]` when `N = 1`, empty when `N = 0`). -/
def linspace0 (b : ℚ) (N : ℕ) : List ℚ :=
  if N = 0 then []
  else if N = 1 then [0]
  else (List.range N).map (fun (i : ℕ) => b * (i : ℚ) / ((N : ℚ) - 1))

/-- Embedding of `np.sign` on a non-NaN value. -/
def npsign (x : ℚ) : ℤ := if 0 < x then 1 else if x < 0 then -1 else 0

/-- Embedding of `np.isclose(a, b)` with the default tolerances
`rtol = 1e-5`, `atol = 1e-8`: `|a - b| <= atol + rtol * |b|`. -/
def np_isclose (a b : ℚ) : Prop := |a - b| ≤ 1 / 100000000 + (1 / 100000) * |b|

instance (a b : ℚ) : Decidable (np_isclose a b) := by
  unfold np_isclose; infer_instance

/-- Row update used by the sweep (`result[i][j] = bisection`). -/
def updRow (row : ℕ → ℚ) (j : ℕ) (v : ℚ) : ℕ → ℚ :=
  fun j' => if j' = j then v else row j'

/-- Initial row of the sweep: `result[i][0] = fd`, all mode cells `0`. -/
def initRow (fd : ℚ) : ℕ → ℚ := fun j => if j = 0 then fd else 0

/-- Fuel recursion for the phase-velocity window loop
`while vp_2 < self.vp_max` of `Lamb._solve_disp_eqn`.  The characteristic
function is abstracted as `f : ℚ → ℚ → Option ℚ` (`none` models NaN) and
`scipy.optimize.bisect` as `bisect vp_1 vp_2 fd`.  A candidate root is
stored in slot `j` iff `j < nmodes + 1`, both window endpoints evaluate
non-NaN with differing `np.sign`, and the bisection result `r` passes
`|f(r, fd)| < 1e-2` and `not np.isclose(r, c)`; only then does `j`
advance. -/
def sweepStep (f : ℚ → ℚ → Option ℚ) (bisect : ℚ → ℚ → ℚ → ℚ) (fd c : ℚ)
    (nmodes : ℕ) (vp1 vp2 : ℚ) (j : ℕ) (row : ℕ → ℚ) : ℕ × (ℕ → ℚ) :=
  if j < nmodes + 1 then
    match f vp1 fd, f vp2 fd with
    | some x1, some x2 =>
      if npsign x1 ≠ npsign x2 then
        (match f (bisect vp1 vp2 fd) fd with
         | some y =>
           if |y| < 1 / 100 ∧ ¬ np_isclose (bisect vp1 vp2 fd) c then
             (j + 1, updRow row j (bisect vp1 vp2 fd))
           else (j, row)
         | none => (j, row))
      else (j, row)
    | _, _ => (j, row)
  else (j, row)

def sweepAux (f : ℚ → ℚ → Option ℚ) (bisect : ℚ → ℚ → ℚ → ℚ)
    (fd vpMax vpStep c : ℚ) (nmodes : ℕ) :
    ℕ → ℚ → ℚ → ℕ → (ℕ → ℚ) → (ℕ → ℚ)
  | 0, _, _, _, row => row
  | fuel + 1, vp1, vp2, j, row =>
    if vp2 < vpMax then
      sweepAux f bisect fd vpMax vpStep c nmodes fuel vp2 (vp2 + vpStep)
        (sweepStep f bisect fd c nmodes vp1 vp2 j row).1
        (sweepStep f bisect fd c nmodes vp1 vp2 j row).2
    else row

/-- Fuel bound for the window loop: with `vp_step > 0` the loop runs fewer
than `⌈vp_max / vp_step⌉ + 1` times.  With `vp_step <= 0` the Python loop
never terminates; the embedding gives it zero fuel (no claim depends on
that degenerate configuration). -/
def sweepFuel (vpMax vpStep : ℚ) : ℕ :=
  if 0 < vpStep then (⌈vpMax / vpStep⌉).toNat + 1 else 0

/-- One row of the raw result matrix produced by the sweep of
`Lamb._solve_disp_eqn` at a fixed `fd`. -/
def sweepRow (f : ℚ → ℚ → Option ℚ) (bisect : ℚ → ℚ → ℚ → ℚ)
    (fd vpMax vpStep c : ℚ) (nmodes : ℕ) : ℕ → ℚ :=
  sweepAux f bisect fd vpMax vpStep c nmodes (sweepFuel vpMax vpStep) 0 vpStep 1 (initRow fd)

/-- The raw result matrix of `Lamb._solve_disp_eqn` before instability
correction: row `i` is the sweep row at `fd_arr[i]`,
`fd_arr = np.linspace(0, fd_max, N)`. -/
def rawMat (f : ℚ → ℚ → Option ℚ) (bisect : ℚ → ℚ → ℚ → ℚ)
    (fdMax : ℚ) (N nmodes : ℕ) (vpMax vpStep c : ℚ) : Mat :=
  fun i j =>
    match (linspace0 fdMax N).get? i with
    | some fd => sweepRow f bisect fd vpMax vpStep c nmodes j
    | none => 0

/-- Branch extraction for one mode column: after `correct_instability` the
code replaces zeros by NaN (`result[result == 0] = np.nan`) and drops every
row where either stacked coordinate is NaN; the composite keeps exactly the
rows where both the `fd` cell and the mode cell are nonzero. -/
def modeBranch (L : ℕ) (m : Mat) (col : ℕ) : List (ℚ × ℚ) :=
  (List.range L).filterMap
    (fun i => if m i 0 ≠ 0 ∧ m i col ≠ 0 then some (m i 0, m i col) else none)

/-- The branch returned by `Lamb._solve_disp_eqn` for mode order `mode`
(stored in matrix column `mode + 1`). -/
def solveBranch (f : ℚ → ℚ → Option ℚ) (bisect : ℚ → ℚ → ℚ → ℚ)
    (fdMax : ℚ) (N nmodes : ℕ) (vpMax vpStep c : ℚ) (n mode : ℕ) : List (ℚ × ℚ) :=
  modeBranch N
    (correct_instability N (nmodes + 1) n (rawMat f bisect fdMax N nmodes vpMax vpStep c))
    (mode + 1)

/-- The result dictionary of `Lamb._solve_disp_eqn`: mode label
(`'S0'`, `'A1'`, ...) to branch, for `nmode in range(nmodes)`. -/
def solve_disp_eqn (f : ℚ → ℚ → Option ℚ) (bisect : ℚ → ℚ → ℚ → ℚ)
    (fdMax : ℚ) (N nmodes : ℕ) (vpMax vpStep c : ℚ) (n : ℕ) (label : String) :
    List (String × List (ℚ × ℚ)) :=
  (List.range nmodes).map
    (fun mode => (label ++ toString mode, solveBranch f bisect fdMax N nmodes vpMax vpStep c n mode))

/-- Acceptance predicate of the sweep: the candidate root `r` evaluates
non-NaN with `|f(r, fd)| < 1e-2` and is not `np.isclose` to the forbidden
bulk speed `c`. -/
def rootAccepted (f : ℚ → ℚ → Option ℚ) (c r fd : ℚ) : Prop :=
  (∃ y, f r fd = some y ∧ |y| < 1 / 100) ∧ ¬ np_isclose r c

/-- The constructor arguments of `Lamb.__init__` (material label omitted;
`nmodes` and `fd_points` are Python `int`s, the rest floats). -/
structure LambConfig where
  thickness : ℚ
  nmodes_sym : ℤ
  nmodes_antisym : ℤ
  fd_max : ℚ
  fd_step : ℚ
  vp_max : ℚ
  c_l : ℚ
  c_s : ℚ
  c_r : ℚ
  fd_points : ℤ
  vp_step : ℚ

/-- The state constructed by `Lamb.__init__`: derived geometry fields and
the two solved families.  (The interpolation layer that `__init__` applies
afterwards is embedded separately, over `ℝ`, as `interpolate`.) -/
structure LambState where
  d : ℚ
  h : ℚ
  fd_step_si : ℚ
  fd_points : ℤ
  sym : List (String × List (ℚ × ℚ))
  antisym : List (String × List (ℚ × ℚ))

/-- A structured configuration error, as the specification's
`InvalidConfig`.  The embedded constructor never produces one, mirroring
the code. -/
inductive ConfigError where
  | invalid : ConfigError

/-- Embedding of `Lamb.__init__` (with the two characteristic functions and
the bisection routine abstracted).  Mirrors the source: `d = thickness/1e3`,
`h = (thickness/2)/1e3`, `fd_step` scaled by `1e3`, and — crucially —
`self.fd_points = int(self.fd_max / self.fd_step)`, *overwriting* the
caller-supplied `fd_points` argument, which is never read.  The symmetric
family is solved with forbidden speed `c_s` and instability parameter
`n = 1`, the antisymmetric family with `c_l` and `n = 2`.  No validation of
any kind is performed. -/
def lambInit (fS fA : ℚ → ℚ → Option ℚ) (bisect : ℚ → ℚ → ℚ → ℚ)
    (cfg : LambConfig) : LambState :=
  { d := cfg.thickness / 1000
    h := cfg.thickness / 2 / 1000
    fd_step_si := cfg.fd_step * 1000
    fd_points := pyInt (cfg.fd_max / (cfg.fd_step * 1000))
    sym := solve_disp_eqn fS bisect cfg.fd_max
      (pyInt (cfg.fd_max / (cfg.fd_step * 1000))).toNat cfg.nmodes_sym.toNat
      cfg.vp_max cfg.vp_step cfg.c_s 1 "S"
    antisym := solve_disp_eqn fA bisect cfg.fd_max
      (pyInt (cfg.fd_max / (cfg.fd_step * 1000))).toNat cfg.nmodes_antisym.toNat
      cfg.vp_max cfg.vp_step cfg.c_l 2 "A" }

/-- The compute entry point viewed as a fallible operation: the source
`Lamb.__init__` contains no validation and no raise for numeric
configurations, so the embedding always returns `Except.ok`. -/
def lambInitE (fS fA : ℚ → ℚ → Option ℚ) (bisect : ℚ → ℚ → ℚ → ℚ)
    (cfg : LambConfig) : Except ConfigError LambState :=
  Except.ok (lambInit fS fA bisect cfg)

/-- The validity violations listed by the specification (`InvalidConfig`,
spec section 7): thickness ≤ 0, cS ≤ 0, cL ≤ cS, vp_step ≤ 0,
vp_max ≤ vp_step, fd_points < 2, or a negative mode count.  Used only to
state the validation claim; the source performs none of these checks. -/
def isInvalidConfig (cfg : LambConfig) : Prop :=
  cfg.thickness ≤ 0 ∨ cfg.c_s ≤ 0 ∨ cfg.c_l ≤ cfg.c_s ∨ cfg.vp_step ≤ 0 ∨
  cfg.vp_max ≤ cfg.vp_step ∨ cfg.fd_points < 2 ∨ cfg.nmodes_sym < 0 ∨
  cfg.nmodes_antisym < 0

/-- Principal square root of a real argument taken in `ℂ`, as computed by
`np.sqrt(x, dtype=np.complex128)` (and `np.emath.sqrt`) on a real input:
`√x` for `x ≥ 0` and `i·√(-x)` for `x < 0`. -/
noncomputable def csqrt (x : ℝ) : ℂ :=
  if 0 ≤ x then ((Real.sqrt x : ℝ) : ℂ) else Complex.I * ((Real.sqrt (-x) : ℝ) : ℂ)

/-- Embedding of `Lamb._calc_constants`: `omega = 2π(fd/d)`, `k = omega/vp`,
and the complex constants `p`, `q`. -/
noncomputable def calc_constants (d cL cS vp fd : ℝ) : ℝ × ℂ × ℂ :=
  let omega := 2 * Real.pi * (fd / d)
  let k := omega / vp
  (k, csqrt ((omega / cL) ^ 2 - k ^ 2), csqrt ((omega / cS) ^ 2 - k ^ 2))

/-- Embedding of `Lamb._symmetric`: the real part of
`tan(q h)/q + (4 k² p tan(p h))/(q² - k²)²`. -/
noncomputable def symmetric (d h cL cS vp fd : ℝ) : ℝ :=
  let k : ℝ := (calc_constants d cL cS vp fd).1
  let p : ℂ := (calc_constants d cL cS vp fd).2.1
  let q : ℂ := (calc_constants d cL cS vp fd).2.2
  (Complex.tan (q * (h : ℂ)) / q
    + (4 * (k : ℂ) ^ 2 * p * Complex.tan (p * (h : ℂ))) / (q ^ 2 - (k : ℂ) ^ 2) ^ 2).re

/-- Embedding of `Lamb._antisymmetric`: the real part of
`q tan(q h) + ((q² - k²)² tan(p h))/(4 k² p)`. -/
noncomputable def antisymmetric (d h cL cS vp fd : ℝ) : ℝ :=
  let k : ℝ := (calc_constants d cL cS vp fd).1
  let p : ℂ := (calc_constants d cL cS vp fd).2.1
  let q : ℂ := (calc_constants d cL cS vp fd).2.2
  (q * Complex.tan (q * (h : ℂ))
    + (((q ^ 2 - (k : ℂ) ^ 2) ^ 2) * Complex.tan (p * (h : ℂ))) / (4 * (k : ℂ) ^ 2 * p)).re

/-- The symmetric residual written from the specification's words:
`ω = 2π·fd/d`, `k = ω/vp`, `p = √((ω/cL)² − k²)`, `q = √((ω/cS)² − k²)`
over `ℂ`, residual `tan(q·h)/q + 4·k²·p·tan(p·h)/(q² − k²)²`, of which
only the real part is kept. -/
noncomputable def spec_symmetric (d h cL cS vp fd : ℝ) : ℝ :=
  let omega := 2 * Real.pi * fd / d
  let k := omega / vp
  let p := csqrt ((omega / cL) ^ 2 - k ^ 2)
  let q := csqrt ((omega / cS) ^ 2 - k ^ 2)
  (Complex.tan (q * (h : ℂ)) / q
    + 4 * (k : ℂ) ^ 2 * p * Complex.tan (p * (h : ℂ)) / (q ^ 2 - (k : ℂ) ^ 2) ^ 2).re

/-- The antisymmetric residual written from the specification's words:
`q·tan(q·h) + (q² − k²)²·tan(p·h)/(4·k²·p)`, real part only. -/
noncomputable def spec_antisymmetric (d h cL cS vp fd : ℝ) : ℝ :=
  let omega := 2 * Real.pi * fd / d
  let k := omega / vp
  let p := csqrt ((omega / cL) ^ 2 - k ^ 2)
  let q := csqrt ((omega / cS) ^ 2 - k ^ 2)
  (q * Complex.tan (q * (h : ℂ))
    + (q ^ 2 - (k : ℂ) ^ 2) ^ 2 * Complex.tan (p * (h : ℂ)) / (4 * (k : ℂ) ^ 2 * p)).re

/-- The wave-number knot values of `Utilities.interpolate`:
`k = (fd*2*np.pi/d)/vp`, elementwise over the branch arrays. -/
noncomputable def kvals (d : ℝ) (fdb vpb : List ℝ) : List ℝ :=
  List.zipWith (fun fdi vpi => fdi * 2 * Real.pi / d / vpi) fdb vpb

/-- The group-velocity knot values of `Utilities.interpolate`:
`vg = np.square(vp) * (1/(vp - vp_prime(fd)*fd))`, with the derivative of
the fitted univariate spline abstracted as `vpPrime`. -/
noncomputable def vgvals (vpPrime : ℝ → ℝ) (fdb vpb : List ℝ) : List ℝ :=
  List.zipWith (fun fdi vpi => vpi ^ 2 * (1 / (vpi - vpPrime fdi * fdi))) fdb vpb

/-- Embedding of `Utilities.interpolate`.  Interpolator objects are
represented by their knot arrays (mode label, x knots, y knots); the cubic
spline fitted through `(fd, vp)` and differentiated is abstracted as
`splineDeriv fdb vpb : ℝ → ℝ`.  A mode enters the three returned maps iff
`arr[1].size > 3`; shorter branches are silently skipped.  Returns
`(interp_vp, interp_vg, interp_k)` in the order of the source. -/
noncomputable def interpolate (splineDeriv : List ℝ → List ℝ → ℝ → ℝ) (d : ℝ)
    (result : List (String × List ℝ × List ℝ)) :
    List (String × List ℝ × List ℝ) × List (String × List ℝ × List ℝ) ×
      List (String × List ℝ × List ℝ) :=
  (result.filterMap (fun e =>
      if 3 < e.2.2.length then some (e.1, e.2.1, e.2.2) else none),
   result.filterMap (fun e =>
      if 3 < e.2.2.length then
        some (e.1, e.2.1, vgvals (splineDeriv e.2.1 e.2.2) e.2.1 e.2.2)
      else none),
   result.filterMap (fun e =>
      if 3 < e.2.2.length then some (e.1, e.2.1, kvals d e.2.1 e.2.2) else none))

/-- One phase-velocity sample of `SH.plot_phase_velocity` at mode order `m`
and angular frequency `omega`:
`kh = np.emath.sqrt((omega*d/cS)² - (m*π)²)`, `k = Re(kh)/d`, the
`k == 0` entries are replaced by NaN, `vp = omega/k`, and `vp == 0`
entries are replaced by NaN.  `none` models NaN. -/
noncomputable def sh_vp_sample (cS d : ℝ) (m : ℕ) (omega : ℝ) : Option ℝ :=
  let kh_re : ℝ :=
    if 0 ≤ (omega * d / cS) ^ 2 - ((m : ℝ) * Real.pi) ^ 2 then
      Real.sqrt ((omega * d / cS) ^ 2 - ((m : ℝ) * Real.pi) ^ 2)
    else 0
  let k := kh_re / d
  if k = 0 then none
  else if omega / k = 0 then none
  else some (omega / k)

/-- The per-mode branches produced by `SH.plot_phase_velocity`: the source
iterates `for mode in range(1, 5)` — the hard-coded orders `1..4` —
regardless of the requested `number_of_modes` (which is accepted but
unused by this plot loop). -/
noncomputable def sh_phase_branches (cS d : ℝ) (number_of_modes : ℕ) :
    List (ℕ × (ℝ → Option ℝ)) :=
  (List.range' 1 4).map (fun m => (m, sh_vp_sample cS d m))

/-! ### Cell-level lemmas for the instability-correction pass -/

theorem upd_self (m : Mat) (r c : ℕ) (v : ℚ) : upd m r c v r c = v := by
  simp [upd]

theorem upd_of_ne (m : Mat) (r c : ℕ) (v : ℚ) (r' c' : ℕ) (h : ¬(r' = r ∧ c' = c)) :
    upd m r c v r' c' = m r' c' := by
  simp only [upd, if_neg h]

theorem foldl_upd_preserve (orig : Mat) (idx j : ℕ) (ps : List ℕ) :
    ∀ (m : Mat) (r' c' : ℕ), (∀ p ∈ ps, ¬(r' = j ∧ c' = idx + p)) →
      (ps.foldl (fun acc p => upd acc j (idx + p) (orig j (idx + p - 1))) m) r' c' = m r' c' := by
  induction ps with
  | nil => intro m r' c' _; rfl
  | cons p ps ih =>
    intro m r' c' h
    simp only [List.foldl_cons]
    rw [ih _ r' c' (fun q hq => h q (List.mem_cons_of_mem p hq))]
    exact upd_of_ne _ _ _ _ _ _ (h p (List.mem_cons_self p ps))

theorem shiftRow_preserve (orig : Mat) (n C idx j : ℕ) (m : Mat) (r' c' : ℕ)
    (h : r' ≠ j ∨ c' ≤ idx + n) :
    shiftRow orig n C idx j m r' c' = m r' c' := by
  unfold shiftRow
  refine foldl_upd_preserve orig idx j _ m r' c' ?_
  intro p hp hcon
  rcases List.mem_range'_1.mp hp with ⟨hp1, _⟩
  rcases h with h | h
  · exact h hcon.1
  · omega

theorem zeroShift_preserve (orig : Mat) (n C idx c j : ℕ) (m : Mat) (r' c' : ℕ)
    (h : r' ≠ j ∨ (c' ≤ idx + n ∧ c' ≠ c)) :
    zeroShift orig n C idx c j m r' c' = m r' c' := by
  unfold zeroShift
  split_ifs
  · rcases h with h | h
    · rw [shiftRow_preserve _ _ _ _ _ _ _ _ (Or.inl h), upd_of_ne _ _ _ _ _ _ (by tauto)]
    · rw [shiftRow_preserve _ _ _ _ _ _ _ _ (Or.inr h.1), upd_of_ne _ _ _ _ _ _ (by tauto)]
  · rfl

theorem zeroShift_colc (orig : Mat) (n C idx c j : ℕ) (m : Mat) (r' : ℕ)
    (hc : c ≤ idx + n) :
    zeroShift orig n C idx c j m r' c = if r' = j ∧ (idx : ℤ) < (C : ℤ) - 1 then 0 else m r' c := by
  unfold zeroShift
  by_cases hg : (idx : ℤ) < (C : ℤ) - 1
  · rw [if_pos hg]
    by_cases hr : r' = j
    · subst hr
      rw [shiftRow_preserve _ _ _ _ _ _ _ _ (Or.inr hc), upd_self, if_pos ⟨rfl, hg⟩]
    · rw [shiftRow_preserve _ _ _ _ _ _ _ _ (Or.inl hr), upd_of_ne _ _ _ _ _ _ (by tauto),
        if_neg (by tauto)]
  · rw [if_neg hg, if_neg (by tauto)]

theorem violGo_preserve_low (orig : Mat) (L C n idx c i : ℕ) :
    ∀ (fuel : ℕ) (j : ℕ) (m : Mat) (r' c' : ℕ), r' < j →
      violGo orig L C n idx c i fuel j m r' c' = m r' c' := by
  intro fuel
  induction fuel with
  | zero => intro j m r' c' _; rfl
  | succ fuel ih =>
    intro j m r' c' hr
    simp only [violGo]
    split_ifs
    · exact ih (j + 1) m r' c' (Nat.lt_succ_of_lt hr)
    · rw [ih (j + 1) _ r' c' (Nat.lt_succ_of_lt hr)]
      exact zeroShift_preserve _ _ _ _ _ _ _ _ _ (Or.inl (Nat.ne_of_lt hr))
    · rfl

theorem violGo_zero_persist (orig : Mat) (L C n idx c i : ℕ) (hc : c ≤ idx + n) :
    ∀ (fuel j : ℕ) (m : Mat) (r : ℕ), m r c = 0 →
      violGo orig L C n idx c i fuel j m r c = 0 := by
  intro fuel
  induction fuel with
  | zero => intro j m r h; exact h
  | succ fuel ih =>
    intro j m r h
    simp only [violGo]
    split_ifs
    · exact ih (j + 1) m r h
    · refine ih (j + 1) _ r ?_
      by_cases hr : r = j
      · subst hr
        rw [zeroShift_colc _ _ _ _ _ _ _ _ hc]
        split_ifs with hrj
        · rfl
        · exact h
      · rw [zeroShift_preserve _ _ _ _ _ _ _ _ _ (Or.inl hr)]; exact h
    · exact h

theorem advanceGo_spec (m : Mat) (c L : ℕ) :
    ∀ (fuel j : ℕ), j ≤ L - 1 → L ≤ fuel + j →
      j ≤ advanceGo m c L fuel j ∧ advanceGo m c L fuel j ≤ L - 1 ∧
      (∀ t, j ≤ t → t < advanceGo m c L fuel j → m t c = 0) ∧
      (advanceGo m c L fuel j < L - 1 → m (advanceGo m c L fuel j) c ≠ 0) := by
  intro fuel
  induction fuel with
  | zero =>
    intro j hjL hfuel
    refine ⟨Nat.le_refl _, hjL, fun t h1 h2 => absurd (h1.trans_lt h2) (by simp [advanceGo]), ?_⟩
    simp only [advanceGo]
    omega
  | succ fuel ih =>
    intro j hjL hfuel
    by_cases hA : m j c = 0 ∧ j < L - 1
    · have hval : advanceGo m c L (fuel + 1) j = advanceGo m c L fuel (j + 1) := by
        simp only [advanceGo]; rw [if_pos hA]
      obtain ⟨h1, h2, h3, h4⟩ := ih (j + 1) (by omega) (by omega)
      rw [hval]
      refine ⟨by omega, h2, ?_, h4⟩
      intro t ht1 ht2
      rcases Nat.eq_or_lt_of_le ht1 with h | h
      · rw [← h]; exact hA.1
      · exact h3 t h ht2
    · have hval : advanceGo m c L (fuel + 1) j = j := by
        simp only [advanceGo]; rw [if_neg hA]
      rw [hval]
      exact ⟨Nat.le_refl _, hjL, fun t h1 h2 => absurd (h1.trans_lt h2) (by omega),
        fun hj => fun h0 => hA ⟨h0, hj⟩⟩

theorem violGo_spec (orig : Mat) (L C n idx c i : ℕ) (hc : c ≤ idx + n)
    (hidx : (idx : ℤ) < (C : ℤ) - 1) :
    ∀ (fuel j : ℕ) (m : Mat), i < j → j ≤ L - 1 → L ≤ fuel + j →
      ∃ js, j ≤ js ∧ js ≤ L - 1 ∧
        (∀ t, j ≤ t → t < js → violGo orig L C n idx c i fuel j m t c = 0) ∧
        (∀ t c', t < j → violGo orig L C n idx c i fuel j m t c' = m t c') ∧
        (∀ t c', js ≤ t → violGo orig L C n idx c i fuel j m t c' = m t c') ∧
        (js < L - 1 → m js c ≠ 0 ∧ m js c ≤ m i c) := by
  intro fuel
  induction fuel with
  | zero =>
    intro j m hij hjL hfuel
    refine ⟨j, Nat.le_refl _, hjL, fun t h1 h2 => by omega, fun t c' _ => rfl,
      fun t c' _ => rfl, fun hj => by omega⟩
  | succ fuel ih =>
    intro j m hij hjL hfuel
    by_cases hA : (m i c < m j c ∨ m j c = 0) ∧ j < L - 1
    · by_cases hB : m j c = 0
      · have hval : violGo orig L C n idx c i (fuel + 1) j m =
            violGo orig L C n idx c i fuel (j + 1) m := by
          simp only [violGo]; rw [if_pos hA, if_pos hB]
        obtain ⟨js, h1, h2, h3, h4, h5, h6⟩ := ih (j + 1) m (by omega) (by omega) (by omega)
        refine ⟨js, by omega, h2, ?_, ?_, ?_, h6⟩
        · intro t ht1 ht2
          rw [hval]
          rcases Nat.eq_or_lt_of_le ht1 with h | h
          · have ht : t = j := by omega
            subst ht
            rw [h4 t c (by omega)]; exact hB
          · exact h3 t h ht2
        · intro t c' ht; rw [hval]; exact h4 t c' (by omega)
        · intro t c' ht; rw [hval]; exact h5 t c' ht
      · set m2 := zeroShift orig n C idx c j m with hm2
        have hval : violGo orig L C n idx c i (fuel + 1) j m =
            violGo orig L C n idx c i fuel (j + 1) m2 := by
          simp only [violGo]; rw [if_pos hA, if_neg hB]
        have hm2j : m2 j c = 0 := by
          rw [hm2, zeroShift_colc _ _ _ _ _ _ _ _ hc, if_pos ⟨rfl, hidx⟩]
        have hm2ne : ∀ t c', t ≠ j → m2 t c' = m t c' := fun t c' ht =>
          zeroShift_preserve _ _ _ _ _ _ _ _ _ (Or.inl ht)
        obtain ⟨js, h1, h2, h3, h4, h5, h6⟩ := ih (j + 1) m2 (by omega) (by omega) (by omega)
        refine ⟨js, by omega, h2, ?_, ?_, ?_, ?_⟩
        · intro t ht1 ht2
          rw [hval]
          rcases Nat.eq_or_lt_of_le ht1 with h | h
          · have ht : t = j := by omega
            subst ht
            rw [h4 t c (by omega)]; exact hm2j
          · exact h3 t h ht2
        · intro t c' ht
          rw [hval, h4 t c' (by omega), hm2ne t c' (by omega)]
        · intro t c' ht
          rw [hval, h5 t c' ht, hm2ne t c' (by omega)]
        · intro hjs
          obtain ⟨ha, hb⟩ := h6 hjs
          rw [hm2ne js c (by omega)] at ha hb
          rw [hm2ne i c (by omega)] at hb
          exact ⟨ha, hb⟩
    · have hval : violGo orig L C n idx c i (fuel + 1) j m = m := by
        simp only [violGo]; rw [if_neg hA]
      refine ⟨j, Nat.le_refl _, hjL, fun t h1 h2 => by omega,
        fun t c' _ => by rw [hval], fun t c' _ => by rw [hval], ?_⟩
      intro hj
      have hX : ¬(m i c < m j c ∨ m j c = 0) := fun hx => hA ⟨hx, hj⟩
      push_neg at hX
      exact ⟨hX.2, hX.1⟩

theorem violGo_preserve_lowcol (orig : Mat) (L C n idx c i : ℕ) (hc : c ≤ idx + n) :
    ∀ (fuel j : ℕ) (m : Mat) (r c' : ℕ), c' < c →
      violGo orig L C n idx c i fuel j m r c' = m r c' := by
  intro fuel
  induction fuel with
  | zero => intro j m r c' _; rfl
  | succ fuel ih =>
    intro j m r c' hcc
    simp only [violGo]
    split_ifs
    · exact ih (j + 1) m r c' hcc
    · rw [ih (j + 1) _ r c' hcc]
      exact zeroShift_preserve _ _ _ _ _ _ _ _ _ (Or.inr ⟨by omega, by omega⟩)
    · rfl

theorem advanceGo_ge (m : Mat) (c L : ℕ) :
    ∀ (fuel j : ℕ), j ≤ advanceGo m c L fuel j := by
  intro fuel
  induction fuel with
  | zero => intro j; exact Nat.le_refl _
  | succ fuel ih =>
    intro j
    simp only [advanceGo]
    split_ifs
    · exact (Nat.le_succ j).trans (ih (j + 1))
    · exact Nat.le_refl _

theorem lastZeroed_ne (L c : ℕ) (m : Mat) (i r c' : ℕ) (h : r ≠ L - 1 ∨ c' ≠ c) :
    lastZeroed L c m i r c' = m r c' := by
  unfold lastZeroed
  split_ifs
  · exact upd_of_ne _ _ _ _ _ _ (by tauto)
  · rfl

theorem lastZeroed_zero_persist (L c : ℕ) (m : Mat) (i r : ℕ) (h : m r c = 0) :
    lastZeroed L c m i r c = 0 := by
  unfold lastZeroed
  split_ifs
  · by_cases hr : r = L - 1
    · subst hr; exact upd_self _ _ _ _
    · rw [upd_of_ne _ _ _ _ _ _ (by tauto)]; exact h
  · exact h

theorem anchorStep_preserve_low (orig : Mat) (L C n idx c : ℕ) (m1 : Mat) (i r c' : ℕ)
    (hr : r ≤ i) :
    anchorStep orig L C n idx c m1 i r c' = m1 r c' := by
  unfold anchorStep
  split_ifs
  · exact violGo_preserve_low _ _ _ _ _ _ _ _ _ _ _ _
      (lt_of_le_of_lt hr (lt_of_lt_of_le (Nat.lt_succ_self i) (advanceGo_ge _ _ _ _ _)))
  · rfl
  · rfl

theorem anchorStep_zero_persist (orig : Mat) (L C n idx c : ℕ) (hc : c ≤ idx + n)
    (m1 : Mat) (i r : ℕ) (h : m1 r c = 0) :
    anchorStep orig L C n idx c m1 i r c = 0 := by
  unfold anchorStep
  split_ifs
  · exact violGo_zero_persist _ _ _ _ _ _ _ hc _ _ _ _ h
  · exact h
  · exact h

theorem anchorStep_preserve_lowcol (orig : Mat) (L C n idx c : ℕ) (hc : c ≤ idx + n)
    (m1 : Mat) (i r c' : ℕ) (hcc : c' < c) :
    anchorStep orig L C n idx c m1 i r c' = m1 r c' := by
  unfold anchorStep
  split_ifs
  · exact violGo_preserve_lowcol _ _ _ _ _ _ _ hc _ _ _ _ _ hcc
  · rfl
  · rfl

theorem stepRow_preserve_low (orig : Mat) (L C n idx c : ℕ) (m : Mat) (i : ℕ)
    (hi : i < L - 1) (r c' : ℕ) (hr : r ≤ i) :
    stepRow orig L C n idx c m i r c' = m r c' := by
  unfold stepRow
  rw [anchorStep_preserve_low _ _ _ _ _ _ _ _ _ _ hr,
    lastZeroed_ne _ _ _ _ _ _ (Or.inl (by omega))]

theorem stepRow_zero_persist (orig : Mat) (L C n idx c : ℕ) (hc : c ≤ idx + n)
    (m : Mat) (i r : ℕ) (h : m r c = 0) :
    stepRow orig L C n idx c m i r c = 0 := by
  unfold stepRow
  exact anchorStep_zero_persist _ _ _ _ _ _ hc _ _ _
    (lastZeroed_zero_persist _ _ _ _ _ h)

theorem stepRow_preserve_lowcol (orig : Mat) (L C n idx c : ℕ) (hc : c ≤ idx + n)
    (m : Mat) (i r c' : ℕ) (hcc : c' < c) :
    stepRow orig L C n idx c m i r c' = m r c' := by
  unfold stepRow
  rw [anchorStep_preserve_lowcol _ _ _ _ _ _ hc _ _ _ _ hcc,
    lastZeroed_ne _ _ _ _ _ _ (Or.inr (by omega))]

theorem stepRow_zero_anchor (orig : Mat) (L C n idx c : ℕ) (m : Mat) (i : ℕ)
    (hm : m i c = 0) (hL : i + 2 ≠ L) :
    stepRow orig L C n idx c m i = m := by
  unfold stepRow
  have h1 : lastZeroed L c m i = m := by unfold lastZeroed; rw [if_neg hL]
  rw [h1]
  unfold anchorStep
  rw [if_neg (by simpa using hm)]

theorem scanGo_out (orig : Mat) (L C n idx c : ℕ) (fuel i : ℕ) (m : Mat)
    (hi : L - 1 ≤ i) : scanGo orig L C n idx c fuel i m = m := by
  cases fuel with
  | zero => rfl
  | succ fuel => simp only [scanGo]; rw [if_neg (by omega)]

theorem scanGo_preserve_low (orig : Mat) (L C n idx c : ℕ) :
    ∀ (fuel i : ℕ) (m : Mat) (r c' : ℕ), r ≤ i →
      scanGo orig L C n idx c fuel i m r c' = m r c' := by
  intro fuel
  induction fuel with
  | zero => intro i m r c' _; rfl
  | succ fuel ih =>
    intro i m r c' hr
    by_cases hi : i < L - 1
    · simp only [scanGo]
      rw [if_pos hi, ih (i + 1) _ r c' (by omega),
        stepRow_preserve_low _ _ _ _ _ _ _ _ hi _ _ hr]
    · simp only [scanGo]; rw [if_neg hi]

theorem scanGo_zero_persist (orig : Mat) (L C n idx c : ℕ) (hc : c ≤ idx + n) :
    ∀ (fuel i : ℕ) (m : Mat) (r : ℕ), m r c = 0 →
      scanGo orig L C n idx c fuel i m r c = 0 := by
  intro fuel
  induction fuel with
  | zero => intro i m r h; exact h
  | succ fuel ih =>
    intro i m r h
    simp only [scanGo]
    split_ifs
    · exact ih (i + 1) _ r (stepRow_zero_persist _ _ _ _ _ _ hc _ _ _ h)
    · exact h

theorem scanGo_preserve_lowcol (orig : Mat) (L C n idx c : ℕ) (hc : c ≤ idx + n) :
    ∀ (fuel i : ℕ) (m : Mat) (r c' : ℕ), c' < c →
      scanGo orig L C n idx c fuel i m r c' = m r c' := by
  intro fuel
  induction fuel with
  | zero => intro i m r c' _; rfl
  | succ fuel ih =>
    intro i m r c' hcc
    simp only [scanGo]
    split_ifs
    · rw [ih (i + 1) _ r c' hcc, stepRow_preserve_lowcol _ _ _ _ _ _ hc _ _ _ _ hcc]
    · rfl

theorem scanGo_last_zero (orig : Mat) (L C n idx c : ℕ) (hc : c ≤ idx + n) :
    ∀ (fuel i : ℕ) (m : Mat), 2 ≤ L → i ≤ L - 2 → L ≤ fuel + i →
      scanGo orig L C n idx c fuel i m (L - 1) c = 0 := by
  intro fuel
  induction fuel with
  | zero => intro i m hL hi hfuel; omega
  | succ fuel ih =>
    intro i m hL hi hfuel
    have hiL : i < L - 1 := by omega
    simp only [scanGo]
    rw [if_pos hiL]
    by_cases hcase : i < L - 2
    · exact ih (i + 1) _ hL (by omega) (by omega)
    · have hi2 : i = L - 2 := by omega
      have hstep : stepRow orig L C n idx c m i (L - 1) c = 0 := by
        unfold stepRow
        have hm1 : lastZeroed L c m i (L - 1) c = 0 := by
          unfold lastZeroed; rw [if_pos (by omega)]; exact upd_self _ _ _ _
        exact anchorStep_zero_persist _ _ _ _ _ _ hc _ _ _ hm1
      rw [scanGo_out _ _ _ _ _ _ _ _ _ (by omega)]
      exact hstep

theorem scanGo_preserve_val (orig : Mat) (L C n idx c : ℕ) :
    ∀ (fuel k : ℕ) (m : Mat) (r : ℕ), (∀ t, k ≤ t → t < r → m t c = 0) → r < L - 1 →
      scanGo orig L C n idx c fuel k m r c = m r c := by
  intro fuel
  induction fuel with
  | zero => intro k m r _ _; rfl
  | succ fuel ih =>
    intro k m r hz hr
    by_cases hkr : r ≤ k
    · exact scanGo_preserve_low _ _ _ _ _ _ _ _ _ _ _ hkr
    · have hk : k < L - 1 := by omega
      simp only [scanGo]
      rw [if_pos hk, stepRow_zero_anchor _ _ _ _ _ _ _ _ (hz k (Nat.le_refl _) (by omega)) (by omega)]
      exact ih (k + 1) m r (fun t ht1 ht2 => hz t (by omega) ht2) hr

theorem stepRow_last (orig : Mat) (L C n idx c : ℕ) (hc : c ≤ idx + n)
    (m : Mat) (i : ℕ) (hi : i + 2 = L) :
    stepRow orig L C n idx c m i (L - 1) c = 0 := by
  unfold stepRow
  refine anchorStep_zero_persist _ _ _ _ _ _ hc _ _ _ ?_
  unfold lastZeroed
  rw [if_pos hi]
  exact upd_self _ _ _ _

theorem stepRow_spec (orig : Mat) (L C n idx c : ℕ) (hc : c ≤ idx + n)
    (hidx : (idx : ℤ) < (C : ℤ) - 1) (m : Mat) (i : ℕ) (hi : i < L - 1)
    (hm : m i c ≠ 0) :
    ∃ js, i < js ∧ js ≤ L - 1 ∧
      (∀ t c', t ≤ i → stepRow orig L C n idx c m i t c' = m t c') ∧
      (∀ t, i < t → t < js → stepRow orig L C n idx c m i t c = 0) ∧
      (js < L - 1 → stepRow orig L C n idx c m i js c = m js c ∧
        m js c ≠ 0 ∧ m js c ≤ m i c) := by
  have hm1 : ∀ t c', (t ≠ L - 1 ∨ c' ≠ c) → lastZeroed L c m i t c' = m t c' :=
    fun t c' h => lastZeroed_ne _ _ _ _ _ _ h
  have hanc : lastZeroed L c m i i c ≠ 0 := by
    rw [hm1 i c (Or.inl (by omega))]; exact hm
  obtain ⟨hj1ge, hj1le, hj1zeros, hj1nz⟩ :=
    advanceGo_spec (lastZeroed L c m i) c L L (i + 1) (by omega) (by omega)
  by_cases hj1 : advanceGo (lastZeroed L c m i) c L L (i + 1) < L - 1
  · have hm2eq : stepRow orig L C n idx c m i =
        violGo orig L C n idx c i L (advanceGo (lastZeroed L c m i) c L L (i + 1))
          (lastZeroed L c m i) := by
      unfold stepRow anchorStep
      rw [if_pos hanc, if_pos hj1]
    obtain ⟨js, hv1, hv2, hv3, hv4, hv5, hv6⟩ :=
      violGo_spec orig L C n idx c i hc hidx L
        (advanceGo (lastZeroed L c m i) c L L (i + 1)) (lastZeroed L c m i)
        (by omega) hj1le (by omega)
    refine ⟨js, by omega, hv2, ?_, ?_, ?_⟩
    · intro t c' ht
      rw [hm2eq, hv4 t c' (by omega), hm1 t c' (Or.inl (by omega))]
    · intro t ht1 ht2
      rw [hm2eq]
      by_cases htj : t < advanceGo (lastZeroed L c m i) c L L (i + 1)
      · have hz := hj1zeros t (by omega) htj
        rw [hm1 t c (Or.inl (by omega))] at hz
        rw [hv4 t c htj, hm1 t c (Or.inl (by omega))]
        exact hz
      · exact hv3 t (by omega) ht2
    · intro hjs
      obtain ⟨ha, hb⟩ := hv6 hjs
      rw [hm1 js c (Or.inl (by omega))] at ha hb
      rw [hm1 i c (Or.inl (by omega))] at hb
      refine ⟨?_, ha, hb⟩
      rw [hm2eq, hv5 js c (Nat.le_refl _), hm1 js c (Or.inl (by omega))]
  · have hm2eq : stepRow orig L C n idx c m i = lastZeroed L c m i := by
      unfold stepRow anchorStep
      rw [if_pos hanc, if_neg hj1]
    refine ⟨L - 1, hi, Nat.le_refl _, ?_, ?_, fun h => absurd h (by omega)⟩
    · intro t c' ht
      rw [hm2eq, hm1 t c' (Or.inl (by omega))]
    · intro t ht1 ht2
      rw [hm2eq]
      have := hj1zeros t (by omega) (by omega)
      exact this

theorem scanGo_mono (orig : Mat) (L C n idx c : ℕ) (hc : c ≤ idx + n)
    (hidx : (idx : ℤ) < (C : ℤ) - 1) :
    ∀ (fuel i : ℕ) (m : Mat) (a b : ℕ), L ≤ fuel + i → i ≤ a → a < b → b < L →
      scanGo orig L C n idx c fuel i m a c ≠ 0 →
      scanGo orig L C n idx c fuel i m b c ≠ 0 →
      scanGo orig L C n idx c fuel i m b c ≤ scanGo orig L C n idx c fuel i m a c := by
  intro fuel
  induction fuel with
  | zero => intro i m a b hfuel hia hab hbL _ _; omega
  | succ fuel ih =>
    intro i m a b hfuel hia hab hbL ha hb
    by_cases hi : i < L - 1
    case neg =>
      exfalso
      rw [scanGo_out _ _ _ _ _ _ _ _ _ (by omega)] at ha hb
      omega
    case pos =>
      have hval : scanGo orig L C n idx c (fuel + 1) i m =
          scanGo orig L C n idx c fuel (i + 1) (stepRow orig L C n idx c m i) := by
        simp only [scanGo]; rw [if_pos hi]
      rw [hval] at ha hb ⊢
      rcases Nat.eq_or_lt_of_le hia with hae | hlt
      case inr => exact ih (i + 1) _ a b (by omega) hlt hab hbL ha hb
      case inl =>
        subst hae
        have hL2 : 2 ≤ L := by omega
        have hfin_low : ∀ m' : Mat,
            scanGo orig L C n idx c fuel (i + 1) m' i c = m' i c :=
          fun m' => scanGo_preserve_low _ _ _ _ _ _ _ _ _ _ _ (by omega)
        by_cases hanchor : m i c = 0
        · exfalso
          apply ha
          rw [hfin_low]
          exact stepRow_zero_persist _ _ _ _ _ _ hc _ _ _ hanchor
        · obtain ⟨js, hs1, hs2, hs3, hs4, hs5⟩ :=
            stepRow_spec orig L C n idx c hc hidx m i hi hanchor
          have hfin_i : scanGo orig L C n idx c fuel (i + 1)
              (stepRow orig L C n idx c m i) i c = m i c := by
            rw [hfin_low, hs3 i c (Nat.le_refl _)]
          by_cases hbjs : b < js
          · exfalso
            apply hb
            exact scanGo_zero_persist _ _ _ _ _ _ hc _ _ _ _ (hs4 b (by omega) hbjs)
          · rcases Nat.eq_or_lt_of_le (Nat.le_of_not_lt hbjs) with hbe | hbgt
            · subst hbe
              by_cases hjsL : js < L - 1
              · obtain ⟨hp1, hp2, hp3⟩ := hs5 hjsL
                have hfin_js : scanGo orig L C n idx c fuel (i + 1)
                    (stepRow orig L C n idx c m i) js c = m js c := by
                  rw [scanGo_preserve_val _ _ _ _ _ _ _ _ _ _
                    (fun t ht1 ht2 => hs4 t (by omega) ht2) hjsL, hp1]
                rw [hfin_i, hfin_js]
                exact hp3
              · exfalso
                apply hb
                have hbL1 : js = L - 1 := by omega
                subst hbL1
                by_cases hi2 : i + 2 = L
                · exact scanGo_zero_persist _ _ _ _ _ _ hc _ _ _ _
                    (stepRow_last _ _ _ _ _ _ hc _ _ hi2)
                · exact scanGo_last_zero _ _ _ _ _ _ hc _ _ _ hL2 (by omega) (by omega)
            · have hjsL : js < L - 1 := by omega
              obtain ⟨hp1, hp2, hp3⟩ := hs5 hjsL
              have hfin_js : scanGo orig L C n idx c fuel (i + 1)
                  (stepRow orig L C n idx c m i) js c = m js c := by
                rw [scanGo_preserve_val _ _ _ _ _ _ _ _ _ _
                  (fun t ht1 ht2 => hs4 t (by omega) ht2) hjsL, hp1]
              have hjs_ne : scanGo orig L C n idx c fuel (i + 1)
                  (stepRow orig L C n idx c m i) js c ≠ 0 := by
                rw [hfin_js]; exact hp2
              have hchain := ih (i + 1) _ js b (by omega) (by omega) hbgt hbL hjs_ne hb
              rw [hfin_i]
              calc scanGo orig L C n idx c fuel (i + 1) (stepRow orig L C n idx c m i) b c
                  ≤ scanGo orig L C n idx c fuel (i + 1) (stepRow orig L C n idx c m i) js c :=
                hchain
                _ = m js c := hfin_js
                _ ≤ m i c := hp3

theorem foldl_scanCol_preserve (orig : Mat) (L C n : ℕ) :
    ∀ (l : List ℕ) (m : Mat) (r c' : ℕ), (∀ x ∈ l, c' < x + n) →
      (l.foldl (scanCol orig L C n) m) r c' = m r c' := by
  intro l
  induction l with
  | nil => intro m r c' _; rfl
  | cons x l ih =>
    intro m r c' h
    simp only [List.foldl_cons]
    rw [ih _ r c' (fun y hy => h y (List.mem_cons_of_mem x hy))]
    exact scanGo_preserve_lowcol orig L C n x (x + n) (Nat.le_refl _) L 0 m r c'
      (h x (List.mem_cons_self x l))

theorem range'_fold_mono (orig : Mat) (L C n idx0 : ℕ) (hidx : idx0 + 1 < C) :
    ∀ (k s : ℕ) (m : Mat), s ≤ idx0 → idx0 < s + k →
      ∀ a b, a < b → b < L →
        ((List.range' s k).foldl (scanCol orig L C n) m) a (idx0 + n) ≠ 0 →
        ((List.range' s k).foldl (scanCol orig L C n) m) b (idx0 + n) ≠ 0 →
        ((List.range' s k).foldl (scanCol orig L C n) m) b (idx0 + n) ≤
          ((List.range' s k).foldl (scanCol orig L C n) m) a (idx0 + n) := by
  intro k
  induction k with
  | zero => intro s m h1 h2; omega
  | succ k ih =>
    intro s m hs hk a b hab hbL ha hb
    rw [List.range'_succ s k 1] at ha hb ⊢
    simp only [List.foldl_cons] at ha hb ⊢
    rcases Nat.eq_or_lt_of_le hs with hse | hslt
    · subst hse
      have hpres : ∀ r, ((List.range' (s + 1) k).foldl (scanCol orig L C n)
          (scanCol orig L C n m s)) r (s + n) = scanCol orig L C n m s r (s + n) := by
        intro r
        refine foldl_scanCol_preserve orig L C n _ _ r (s + n) ?_
        intro x hx
        rcases List.mem_range'_1.mp hx with ⟨hx1, _⟩
        omega
      simp only [hpres] at ha hb ⊢
      exact scanGo_mono orig L C n s (s + n) (by omega) (by omega) L 0 m a b
        (by omega) (Nat.zero_le a) hab hbL ha hb
    · exact ih (s + 1) (scanCol orig L C n m s) (by omega) (by omega) a b hab hbL ha hb

theorem correct_instability_mono (L C n : ℕ) (result : Mat) (c : ℕ)
    (hn : 1 ≤ n) (hcn : n ≤ c) (hcC : c < C) (a b : ℕ) (hab : a < b) (hbL : b < L)
    (ha : correct_instability L C n result a c ≠ 0)
    (hb : correct_instability L C n result b c ≠ 0) :
    correct_instability L C n result b c ≤ correct_instability L C n result a c := by
  unfold correct_instability at ha hb ⊢
  rw [List.range_eq_range'] at ha hb ⊢
  have hmain := range'_fold_mono result L C n (c - n) (by omega) (C - n) 0
    (instabilityPre L C n result) (by omega) (by omega) a b hab hbL
  rw [Nat.sub_add_cancel hcn] at hmain
  exact hmain ha hb

theorem modeBranch_pairwise (L : ℕ) (m : Mat) (col : ℕ)
    (h : ∀ a b, a < b → b < L → m a col ≠ 0 → m b col ≠ 0 → m b col ≤ m a col) :
    (modeBranch L m col).Pairwise (fun x y => y.2 ≤ x.2) := by
  unfold modeBranch
  have hp : (List.range L).Pairwise (fun a b => a < b ∧ b < L) := by
    rw [List.pairwise_iff_getElem]
    intro i j hi hj hij
    simp only [List.getElem_range]
    rw [List.length_range] at hj
    exact ⟨hij, hj⟩
  refine hp.filterMap _ ?_
  intro a b hab x hx y hy
  by_cases hca : m a 0 ≠ 0 ∧ m a col ≠ 0
  · by_cases hcb : m b 0 ≠ 0 ∧ m b col ≠ 0
    · rw [if_pos hca] at hx
      rw [if_pos hcb] at hy
      rw [Option.mem_def, Option.some_inj] at hx hy
      rw [← hx, ← hy]
      exact h a b hab.1 hab.2 hca.2 hcb.2
    · rw [if_neg hcb] at hy
      exact absurd hy (by simp)
  · rw [if_neg hca] at hx
    exact absurd hx (by simp)

/-- C1: after instability correction, along every returned mode branch of
order at least `1` in the symmetric family (`n = 1`, so including `S0`) and
of order at least `2` in the antisymmetric family (`n = 2`, which processes
columns of order at least `1` and leaves `A0` exempt), the phase-velocity
samples are monotone non-increasing in `fd`: the branch extracted from the
corrected matrix is pairwise non-increasing in its second (vp) coordinate.
The hypotheses `1 ≤ n` and `n ≤ mode + 1` express exactly which mode
columns the pass processes (`corr.T[n:]`). -/
theorem C1_instability_correction_monotone (f : ℚ → ℚ → Option ℚ)
    (bisect : ℚ → ℚ → ℚ → ℚ) (fdMax vpMax vpStep cc : ℚ) (N nmodes n mode : ℕ)
    (hn : 1 ≤ n) (hmode : n ≤ mode + 1) (hnm : mode < nmodes) :
    (solveBranch f bisect fdMax N nmodes vpMax vpStep cc n mode).Pairwise
      (fun x y => y.2 ≤ x.2) := by
  unfold solveBranch
  refine modeBranch_pairwise N _ (mode + 1) ?_
  intro a b hab hbL ha hb
  exact correct_instability_mono N (nmodes + 1) n _ (mode + 1) hn hmode (by omega)
    a b hab hbL ha hb

/-- Witness for C1 at a concrete instance (symmetric family, mode `S1`,
with an everywhere-nonzero characteristic function and midpoint
bisection). -/
theorem C1_witness :
    (solveBranch (fun vp _ => some (vp - 1)) (fun a b _ => (a + b) / 2)
      10 4 3 2000 500 100 1 1).Pairwise (fun x y => y.2 ≤ x.2) :=
  C1_instability_correction_monotone (fun vp _ => some (vp - 1))
    (fun a b _ => (a + b) / 2) 10 2000 500 100 4 3 1 1
    (by decide) (by decide) (by decide)

/-! ### The sweep: accepted roots (C2) and the fd column (C6, C10) -/

theorem sweepStep_cases (f : ℚ → ℚ → Option ℚ) (bisect : ℚ → ℚ → ℚ → ℚ)
    (fd c : ℚ) (nmodes : ℕ) (vp1 vp2 : ℚ) (j : ℕ) (row : ℕ → ℚ) :
    sweepStep f bisect fd c nmodes vp1 vp2 j row = (j, row) ∨
    (∃ r, rootAccepted f c r fd ∧
      sweepStep f bisect fd c nmodes vp1 vp2 j row = (j + 1, updRow row j r)) := by
  unfold sweepStep
  by_cases hj : j < nmodes + 1
  · rw [if_pos hj]
    rcases hx1 : f vp1 fd with _ | x1
    · left; simp only [hx1]
    · rcases hx2 : f vp2 fd with _ | x2
      · left; simp only [hx1, hx2]
      · simp only [hx1, hx2]
        by_cases hsg : npsign x1 ≠ npsign x2
        · rw [if_pos hsg]
          rcases hy : f (bisect vp1 vp2 fd) fd with _ | y
          · left; simp only [hy]
          · simp only [hy]
            by_cases hacc : |y| < 1 / 100 ∧ ¬ np_isclose (bisect vp1 vp2 fd) c
            · right
              exact ⟨bisect vp1 vp2 fd, ⟨⟨y, hy, hacc.1⟩, hacc.2⟩, by rw [if_pos hacc]⟩
            · left; rw [if_neg hacc]
        · left; rw [if_neg hsg]
  · left; rw [if_neg hj]

theorem sweepAux_inv (f : ℚ → ℚ → Option ℚ) (bisect : ℚ → ℚ → ℚ → ℚ)
    (fd vpMax vpStep c : ℚ) (nmodes : ℕ) :
    ∀ (fuel : ℕ) (vp1 vp2 : ℚ) (j : ℕ) (row : ℕ → ℚ), 1 ≤ j →
      (∀ jj, 1 ≤ jj → row jj ≠ 0 → rootAccepted f c (row jj) fd) →
      ∀ jj, 1 ≤ jj →
        sweepAux f bisect fd vpMax vpStep c nmodes fuel vp1 vp2 j row jj ≠ 0 →
        rootAccepted f c
          (sweepAux f bisect fd vpMax vpStep c nmodes fuel vp1 vp2 j row jj) fd := by
  intro fuel
  induction fuel with
  | zero => intro vp1 vp2 j row _ hrow jj hjj hne; exact hrow jj hjj hne
  | succ fuel ih =>
    intro vp1 vp2 j row hj hrow jj hjj hne
    simp only [sweepAux] at hne ⊢
    split_ifs at hne ⊢ with hv
    · rcases sweepStep_cases f bisect fd c nmodes vp1 vp2 j row with hcase | ⟨r, hr, hcase⟩
      · rw [hcase] at hne ⊢
        exact ih vp2 (vp2 + vpStep) j row hj hrow jj hjj hne
      · rw [hcase] at hne ⊢
        refine ih vp2 (vp2 + vpStep) (j + 1) (updRow row j r) (by omega) ?_ jj hjj hne
        intro t ht htne
        unfold updRow at htne ⊢
        split_ifs at htne ⊢ with htj
        · exact hr
        · exact hrow t ht htne
    · exact hrow jj hjj hne

theorem sweepAux_apply_zero (f : ℚ → ℚ → Option ℚ) (bisect : ℚ → ℚ → ℚ → ℚ)
    (fd vpMax vpStep c : ℚ) (nmodes : ℕ) :
    ∀ (fuel : ℕ) (vp1 vp2 : ℚ) (j : ℕ) (row : ℕ → ℚ), 1 ≤ j →
      sweepAux f bisect fd vpMax vpStep c nmodes fuel vp1 vp2 j row 0 = row 0 := by
  intro fuel
  induction fuel with
  | zero => intro vp1 vp2 j row _; rfl
  | succ fuel ih =>
    intro vp1 vp2 j row hj
    simp only [sweepAux]
    split_ifs with hv
    · rcases sweepStep_cases f bisect fd c nmodes vp1 vp2 j row with hcase | ⟨r, _, hcase⟩
      · rw [hcase]
        exact ih vp2 (vp2 + vpStep) j row hj
      · rw [hcase]
        rw [ih vp2 (vp2 + vpStep) (j + 1) (updRow row j r) (by omega)]
        unfold updRow
        rw [if_neg (by omega)]
    · rfl

theorem sweepRow_zero (f : ℚ → ℚ → Option ℚ) (bisect : ℚ → ℚ → ℚ → ℚ)
    (fd vpMax vpStep c : ℚ) (nmodes : ℕ) :
    sweepRow f bisect fd vpMax vpStep c nmodes 0 = fd := by
  unfold sweepRow
  rw [sweepAux_apply_zero f bisect fd vpMax vpStep c nmodes _ _ _ _ _ (Nat.le_refl 1)]
  rfl

theorem rawMat_col0 (f : ℚ → ℚ → Option ℚ) (bisect : ℚ → ℚ → ℚ → ℚ)
    (fdMax : ℚ) (N nmodes : ℕ) (vpMax vpStep c : ℚ) (i : ℕ) (fd : ℚ)
    (hfd : (linspace0 fdMax N).get? i = some fd) :
    rawMat f bisect fdMax N nmodes vpMax vpStep c i 0 = fd := by
  unfold rawMat
  rw [hfd]
  exact sweepRow_zero f bisect fd vpMax vpStep c nmodes

/-- C2: every root written into the raw result matrix (every nonzero cell
of a mode column `j ≥ 1`) satisfies the acceptance predicate of the sweep:
its residual under the family's characteristic function is defined (non-NaN)
and below `1e-2` in absolute value, and it is not `np.isclose`
(`rtol = 1e-5`, `atol = 1e-8`) to the forbidden bulk speed `cc`; a
candidate failing either test is discarded (the slot counter `j` advances
only in the acceptance branch of `sweepStep`). -/
theorem C2_raw_roots_accepted (f : ℚ → ℚ → Option ℚ) (bisect : ℚ → ℚ → ℚ → ℚ)
    (fdMax : ℚ) (N nmodes : ℕ) (vpMax vpStep cc : ℚ) (i j : ℕ) (fd : ℚ)
    (hj : 1 ≤ j) (hfd : (linspace0 fdMax N).get? i = some fd)
    (hne : rawMat f bisect fdMax N nmodes vpMax vpStep cc i j ≠ 0) :
    rootAccepted f cc (rawMat f bisect fdMax N nmodes vpMax vpStep cc i j) fd := by
  unfold rawMat at hne ⊢
  rw [hfd] at hne ⊢
  unfold sweepRow at hne ⊢
  refine sweepAux_inv f bisect fd vpMax vpStep cc nmodes _ _ _ _ _ (Nat.le_refl 1)
    ?_ j hj hne
  intro t ht htne
  exfalso
  apply htne
  unfold initRow
  rw [if_neg (by omega)]

/-- C2 witness: a concrete sweep in which the single accepted root is
`1/2` (characteristic function `vp - 1/2`, midpoint bisection, one
vp window `[0, 1]` with `vp_max = 2`). -/
theorem C2_witness :
    rootAccepted (fun vp _ => some (vp - 1 / 2)) 100
      (rawMat (fun vp _ => some (vp - 1 / 2)) (fun a b _ => (a + b) / 2)
        0 1 2 2 1 100 0 1) 0 :=
  C2_raw_roots_accepted (fun vp _ => some (vp - 1 / 2)) (fun a b _ => (a + b) / 2)
    0 1 2 2 1 100 0 1 0 (by decide)
    (by norm_num [linspace0])
    (by norm_num [rawMat, linspace0, sweepRow, sweepFuel, sweepAux, sweepStep,
      initRow, updRow, npsign, np_isclose, abs_of_pos, abs_of_nonneg, abs_of_nonpos])

theorem instabilityPre_col0 (L C n : ℕ) (m : Mat) (r : ℕ) :
    instabilityPre L C n m r 0 = m r 0 := by
  unfold instabilityPre
  generalize List.range (C - n) = l
  induction l generalizing m with
  | nil => rfl
  | cons x l ih =>
    simp only [List.foldl_cons]
    rw [ih]
    split_ifs
    · exact upd_of_ne _ _ _ _ _ _ (by omega)
    · rfl
    · rfl

theorem correct_instability_col0 (L C n : ℕ) (hn : 1 ≤ n) (m : Mat) (r : ℕ) :
    correct_instability L C n m r 0 = m r 0 := by
  unfold correct_instability
  rw [foldl_scanCol_preserve _ _ _ _ _ _ _ _ (fun x _ => by omega)]
  exact instabilityPre_col0 L C n m r

theorem linspace0_length (b : ℚ) (N : ℕ) : (linspace0 b N).length = N := by
  unfold linspace0
  split_ifs with h0 h1
  · rw [h0]; rfl
  · rw [h1]; rfl
  · rw [List.length_map, List.length_range]

theorem linspace0_nonneg (b : ℚ) (N : ℕ) (hb : 0 ≤ b) :
    ∀ x ∈ linspace0 b N, 0 ≤ x := by
  unfold linspace0
  split_ifs with h0 h1
  · intro x hx; cases hx
  · intro x hx
    rw [List.mem_singleton] at hx
    rw [hx]
  · intro x hx
    simp only [List.mem_map, List.mem_range] at hx
    obtain ⟨i, hiN, rfl⟩ := hx
    have hN : (2 : ℚ) ≤ (N : ℚ) := by exact_mod_cast (by omega : 2 ≤ N)
    apply div_nonneg
    · exact mul_nonneg hb (Nat.cast_nonneg i)
    · linarith

/-- C10: every fd value appearing in a returned mode branch is strictly
positive.  The first grid sample sits at `fd = 0`; because zero is the
missing-value sentinel and `result[result == 0] = np.nan` is applied to
the whole matrix — column 0 included — the `fd = 0` cell of column 0
itself becomes NaN, so the first row is dropped from every branch
regardless of whether a root was assigned there. -/
theorem C10_branch_fd_positive (f : ℚ → ℚ → Option ℚ) (bisect : ℚ → ℚ → ℚ → ℚ)
    (fdMax : ℚ) (N nmodes : ℕ) (vpMax vpStep cc : ℚ) (n mode : ℕ)
    (hn : 1 ≤ n) (hfd : 0 ≤ fdMax) :
    ∀ pr ∈ solveBranch f bisect fdMax N nmodes vpMax vpStep cc n mode, 0 < pr.1 := by
  intro pr hpr
  unfold solveBranch modeBranch at hpr
  rw [List.mem_filterMap] at hpr
  obtain ⟨i, hi, hcond⟩ := hpr
  by_cases hc : correct_instability N (nmodes + 1) n
      (rawMat f bisect fdMax N nmodes vpMax vpStep cc) i 0 ≠ 0 ∧
      correct_instability N (nmodes + 1) n
      (rawMat f bisect fdMax N nmodes vpMax vpStep cc) i (mode + 1) ≠ 0
  · rw [if_pos hc, Option.some_inj] at hcond
    have hiN : i < N := List.mem_range.mp hi
    have hlen : i < (linspace0 fdMax N).length := by rw [linspace0_length]; exact hiN
    have hget : (linspace0 fdMax N).get? i = some ((linspace0 fdMax N).get ⟨i, hlen⟩) :=
      List.get?_eq_get hlen
    have h0 : correct_instability N (nmodes + 1) n
        (rawMat f bisect fdMax N nmodes vpMax vpStep cc) i 0 =
        (linspace0 fdMax N).get ⟨i, hlen⟩ := by
      rw [correct_instability_col0 _ _ _ hn]
      exact rawMat_col0 f bisect fdMax N nmodes vpMax vpStep cc i _ hget
    have hmem : (linspace0 fdMax N).get ⟨i, hlen⟩ ∈ linspace0 fdMax N :=
      List.get_mem _ _ hlen
    have hnonneg := linspace0_nonneg fdMax N hfd _ hmem
    have hne : (linspace0 fdMax N).get ⟨i, hlen⟩ ≠ 0 := by
      rw [← h0]; exact hc.1
    have hpos : 0 < (linspace0 fdMax N).get ⟨i, hlen⟩ := lt_of_le_of_ne hnonneg (Ne.symm hne)
    have hfst : pr.1 = correct_instability N (nmodes + 1) n
        (rawMat f bisect fdMax N nmodes vpMax vpStep cc) i 0 := by
      rw [← hcond]
    rw [hfst, h0]
    exact hpos
  · rw [if_neg hc] at hcond
    cases hcond

/-- C10 witness: a concrete solve (symmetric family, mode order `0`) at
`fd_max = 10` with three grid points; the branch is `[(5, 1/2)]` and its
`fd` coordinate is positive. -/
theorem C10_witness :
    (0 : ℚ) < (((5 : ℚ), (1 / 2 : ℚ))).1 :=
  C10_branch_fd_positive (fun vp _ => some ((vp - 1) / 1000)) (fun a b _ => (a + b) / 2)
    10 3 1 3 1 100 1 0 (by decide) (by norm_num) (5, 1 / 2)
    (by norm_num [solveBranch, modeBranch, correct_instability, instabilityPre,
      scanCol, scanGo, stepRow, anchorStep, lastZeroed, violGo, advanceGo,
      zeroShift, shiftRow, firstNZ, firstNZGo, upd, rawMat, linspace0,
      sweepRow, sweepFuel, sweepAux, sweepStep, initRow, updRow, npsign,
      np_isclose, List.range_succ, abs_of_pos, abs_of_nonneg, abs_of_nonpos])

theorem linspace0_get (b : ℚ) (N : ℕ) (hN : 2 ≤ N) (i : ℕ) (hi : i < N) :
    (linspace0 b N).get? i = some (b * (i : ℚ) / ((N : ℚ) - 1)) := by
  unfold linspace0
  rw [if_neg (by omega), if_neg (by omega), List.get?_eq_getElem?,
    List.getElem?_map, List.getElem?_range hi]
  rfl

/-- C6 counterexample: with the configuration of the repository's own
example (`fd_max = 10000`, `fd_step = 1`) and the constructor's default
caller-supplied `fd_points = 100`, the constructed grid has `10` points,
not `100`: `Lamb.__init__` overwrites `self.fd_points` with
`int(fd_max / (fd_step * 1e3))` and never reads the argument. -/
theorem C6_counterexample :
    (linspace0 (10000 : ℚ)
      ((lambInit (fun _ _ => some 1) (fun _ _ => some 1) (fun _ _ _ => 0)
        ⟨1, 5, 5, 10000, 1, 15000, 6000, 3000, 2900, 100, 100⟩).fd_points).toNat).length
      = 10 ∧ (10 : ℕ) ≠ 100 := by
  constructor
  · rw [linspace0_length]
    norm_num [lambInit, pyInt]
    decide
  · decide

/-- C6 amended: the fd grid is `np.linspace(0, fd_max, N)` where
`N = int(fd_max / (1000 * fd_step))` — the count derived from `fd_step`,
*not* the caller-supplied `fd_points` argument, which is ignored.  For
`fd_max > 0` and `N ≥ 2` the grid has exactly `N` evenly spaced values
spanning `[0, fd_max]`, and column 0 of each raw result matrix (which the
sweep fills with the grid) is strictly increasing. -/
theorem C6_grid_spec (fdMax fdStep : ℚ) (N : ℕ)
    (hN : N = (pyInt (fdMax / (fdStep * 1000))).toNat) (hN2 : 2 ≤ N)
    (hfd : 0 < fdMax) :
    (linspace0 fdMax N).length = N ∧
    (linspace0 fdMax N).get? 0 = some 0 ∧
    (linspace0 fdMax N).get? (N - 1) = some fdMax ∧
    (∀ i, i + 1 < N → ∀ x y, (linspace0 fdMax N).get? i = some x →
      (linspace0 fdMax N).get? (i + 1) = some y → y - x = fdMax / ((N : ℚ) - 1)) ∧
    (∀ (f : ℚ → ℚ → Option ℚ) (bisect : ℚ → ℚ → ℚ → ℚ) (nmodes : ℕ)
      (vpMax vpStep cc : ℚ) (i j : ℕ), i < j → j < N →
        rawMat f bisect fdMax N nmodes vpMax vpStep cc i 0 <
        rawMat f bisect fdMax N nmodes vpMax vpStep cc j 0) := by
  have hcast : (2 : ℚ) ≤ (N : ℚ) := by exact_mod_cast hN2
  have hden : (0 : ℚ) < (N : ℚ) - 1 := by linarith
  have hsub : ((N - 1 : ℕ) : ℚ) = (N : ℚ) - 1 := by
    rw [Nat.cast_sub (by omega : 1 ≤ N)]
    norm_num
  refine ⟨linspace0_length _ _, ?_, ?_, ?_, ?_⟩
  · rw [linspace0_get fdMax N hN2 0 (by omega)]
    norm_num
  · rw [linspace0_get fdMax N hN2 (N - 1) (by omega), hsub]
    rw [mul_div_assoc, div_self (by linarith), mul_one]
  · intro i hi x y hx hy
    rw [linspace0_get fdMax N hN2 i (by omega)] at hx
    rw [linspace0_get fdMax N hN2 (i + 1) (by omega)] at hy
    rw [Option.some_inj] at hx hy
    rw [← hx, ← hy]
    push_cast
    field_simp
    ring
  · intro f bisect nmodes vpMax vpStep cc i j hij hjN
    rw [rawMat_col0 f bisect fdMax N nmodes vpMax vpStep cc i _
        (linspace0_get fdMax N hN2 i (by omega)),
      rawMat_col0 f bisect fdMax N nmodes vpMax vpStep cc j _
        (linspace0_get fdMax N hN2 j (by omega))]
    apply (div_lt_div_iff_of_pos_right hden).mpr
    exact mul_lt_mul_of_pos_left (by exact_mod_cast hij) hfd

/-- C6 witness: the amended grid specification instantiated at
`fd_max = 10000`, `fd_step = 1`, whose derived point count is `10`. -/
theorem C6_witness :
    (linspace0 (10000 : ℚ) 10).length = 10 ∧
    (linspace0 (10000 : ℚ) 10).get? 0 = some 0 ∧
    (linspace0 (10000 : ℚ) 10).get? (10 - 1) = some 10000 ∧
    (∀ i, i + 1 < 10 → ∀ x y, (linspace0 (10000 : ℚ) 10).get? i = some x →
      (linspace0 (10000 : ℚ) 10).get? (i + 1) = some y →
        y - x = 10000 / ((10 : ℚ) - 1)) ∧
    (∀ (f : ℚ → ℚ → Option ℚ) (bisect : ℚ → ℚ → ℚ → ℚ) (nmodes : ℕ)
      (vpMax vpStep cc : ℚ) (i j : ℕ), i < j → j < 10 →
        rawMat f bisect 10000 10 nmodes vpMax vpStep cc i 0 <
        rawMat f bisect 10000 10 nmodes vpMax vpStep cc j 0) :=
  C6_grid_spec 10000 1 10 (by norm_num [pyInt]; decide) (by decide) (by norm_num)

/-- C7 counterexample: a configuration with `thickness = -1` violates the
specification's validity conditions, yet the embedded `Lamb.__init__`
accepts it and constructs the solver state without reporting any
configuration error. -/
theorem C7_counterexample :
    isInvalidConfig ⟨-1, 5, 5, 10000, 1, 15000, 6000, 3000, 2900, 100, 100⟩ ∧
    (lambInitE (fun _ _ => some 1) (fun _ _ => some 1) (fun _ _ _ => 0)
      ⟨-1, 5, 5, 10000, 1, 15000, 6000, 3000, 2900, 100, 100⟩).isOk = true := by
  constructor
  · left
    norm_num
  · rfl

/-- C7 amended: the compute entry point performs no configuration
validation at all — for every configuration, valid or not, it constructs
the solver state and never reports a structured configuration error. -/
theorem C7_no_validation (fS fA : ℚ → ℚ → Option ℚ) (bisect : ℚ → ℚ → ℚ → ℚ)
    (cfg : LambConfig) : (lambInitE fS fA bisect cfg).isOk = true := rfl

/-! ### The characteristic-function evaluator (C3) -/

/-- C3: for every `(vp, fd)` with `vp > 0` and any plate parameters, the
embedded evaluators return exactly the real part of the specification's
symmetric residual `tan(q·h)/q + 4·k²·p·tan(p·h)/(q² − k²)²` and
antisymmetric residual `q·tan(q·h) + (q² − k²)²·tan(p·h)/(4·k²·p)`, with
`ω = 2π·fd/d`, `k = ω/vp` and `p`, `q` the principal complex square roots
of `(ω/cL)² − k²` and `(ω/cS)² − k²`; the imaginary part is discarded. -/
theorem C3_characteristic_formulas (d h cL cS vp fd : ℝ) (hvp : 0 < vp) :
    symmetric d h cL cS vp fd = spec_symmetric d h cL cS vp fd ∧
    antisymmetric d h cL cS vp fd = spec_antisymmetric d h cL cS vp fd := by
  have homega : 2 * Real.pi * (fd / d) = 2 * Real.pi * fd / d := by ring
  constructor
  · simp only [symmetric, spec_symmetric, calc_constants]
    rw [homega]
  · simp only [antisymmetric, spec_antisymmetric, calc_constants]
    rw [homega]

/-- C3 witness at the concrete point `d = h = 1`, `cL = 2`, `cS = 1`,
`vp = 1`, `fd = 1`. -/
theorem C3_witness :
    symmetric 1 1 2 1 1 1 = spec_symmetric 1 1 2 1 1 1 ∧
    antisymmetric 1 1 2 1 1 1 = spec_antisymmetric 1 1 2 1 1 1 :=
  C3_characteristic_formulas 1 1 2 1 1 1 (by norm_num)

/-! ### The interpolation layer (C4, C5) -/

theorem zipWith_getD (f : ℝ → ℝ → ℝ) :
    ∀ (as bs : List ℝ) (i : ℕ), i < as.length → i < bs.length →
      (List.zipWith f as bs).getD i 0 = f (as.getD i 0) (bs.getD i 0) := by
  intro as
  induction as with
  | nil => intro bs i h1 _; simp at h1
  | cons a as ih =>
    intro bs i h1 h2
    cases bs with
    | nil => simp at h2
    | cons b bs =>
      cases i with
      | zero => rfl
      | succ i =>
        simp only [List.zipWith_cons_cons, List.getD_cons_succ]
        exact ih bs i (by simpa using h1) (by simpa using h2)

/-- C4: for every retained mode, the wave-number knots satisfy
`k(fd)·vp(fd) = 2π·fd/d` at every knot (where the knot's `vp` is nonzero,
as holds for the NaN-filtered branches the pipeline feeds in), and the
group-velocity knots satisfy `vg = vp²/(vp − fd·dvp/dfd)` with `dvp/dfd`
the derivative of the univariate spline fitted through the branch
(abstracted as `sd`). -/
theorem C4_knot_identities (sd : List ℝ → List ℝ → ℝ → ℝ) (d : ℝ)
    (result : List (String × List ℝ × List ℝ)) (mode : String)
    (fdb vpb : List ℝ) (hm : (mode, fdb, vpb) ∈ result) (hlen : 3 < vpb.length)
    (i : ℕ) (hif : i < fdb.length) (hiv : i < vpb.length)
    (hvp : vpb.getD i 0 ≠ 0) :
    (mode, fdb, kvals d fdb vpb) ∈ (interpolate sd d result).2.2 ∧
    (mode, fdb, vgvals (sd fdb vpb) fdb vpb) ∈ (interpolate sd d result).2.1 ∧
    (kvals d fdb vpb).getD i 0 * vpb.getD i 0 = 2 * Real.pi * fdb.getD i 0 / d ∧
    (vgvals (sd fdb vpb) fdb vpb).getD i 0 =
      (vpb.getD i 0) ^ 2 /
        (vpb.getD i 0 - fdb.getD i 0 * sd fdb vpb (fdb.getD i 0)) := by
  refine ⟨?_, ?_, ?_, ?_⟩
  · exact List.mem_filterMap.mpr ⟨(mode, fdb, vpb), hm, by simp [hlen]⟩
  · exact List.mem_filterMap.mpr ⟨(mode, fdb, vpb), hm, by simp [hlen]⟩
  · unfold kvals
    rw [zipWith_getD _ _ _ _ hif hiv, div_mul_cancel₀ _ hvp]
    ring
  · unfold vgvals
    rw [zipWith_getD _ _ _ _ hif hiv]
    ring

/-- C4 witness: a single branch with four knots, `vp = 1` everywhere and a
zero spline derivative. -/
theorem C4_witness :
    ("S0", [0, 1, 2, 3], kvals 1 [0, 1, 2, 3] [1, 1, 1, 1]) ∈
      (interpolate (fun _ _ _ => 0) 1 [("S0", [0, 1, 2, 3], [1, 1, 1, 1])]).2.2 ∧
    ("S0", [0, 1, 2, 3],
        vgvals ((fun _ _ _ => (0 : ℝ)) [0, 1, 2, 3] [1, 1, 1, 1]) [0, 1, 2, 3] [1, 1, 1, 1]) ∈
      (interpolate (fun _ _ _ => 0) 1 [("S0", [0, 1, 2, 3], [1, 1, 1, 1])]).2.1 ∧
    (kvals 1 [0, 1, 2, 3] [1, 1, 1, 1]).getD 1 0 * ([1, 1, 1, 1] : List ℝ).getD 1 0 =
      2 * Real.pi * ([0, 1, 2, 3] : List ℝ).getD 1 0 / 1 ∧
    (vgvals ((fun _ _ _ => (0 : ℝ)) [0, 1, 2, 3] [1, 1, 1, 1]) [0, 1, 2, 3] [1, 1, 1, 1]).getD 1 0 =
      (([1, 1, 1, 1] : List ℝ).getD 1 0) ^ 2 /
        (([1, 1, 1, 1] : List ℝ).getD 1 0 - ([0, 1, 2, 3] : List ℝ).getD 1 0 *
          (fun _ _ _ => (0 : ℝ)) [0, 1, 2, 3] [1, 1, 1, 1] (([0, 1, 2, 3] : List ℝ).getD 1 0)) :=
  C4_knot_identities (fun _ _ _ => 0) 1 [("S0", [0, 1, 2, 3], [1, 1, 1, 1])] "S0"
    [0, 1, 2, 3] [1, 1, 1, 1] (by simp) (by norm_num) 1 (by norm_num) (by norm_num)
    (by norm_num)

theorem key_mem_filterMap (result : List (String × List ℝ × List ℝ))
    (g : String × List ℝ × List ℝ → String × List ℝ × List ℝ)
    (hg : ∀ e, (g e).1 = e.1) (mode : String) :
    (∃ x ∈ result.filterMap
        (fun e => if 3 < e.2.2.length then some (g e) else none), x.1 = mode) ↔
      ∃ e ∈ result, e.1 = mode ∧ 3 < e.2.2.length := by
  constructor
  · rintro ⟨x, hx, hxm⟩
    rw [List.mem_filterMap] at hx
    obtain ⟨e, he, hge⟩ := hx
    by_cases hc : 3 < e.2.2.length
    · rw [if_pos hc, Option.some_inj] at hge
      exact ⟨e, he, by rw [← hxm, ← hge, hg], hc⟩
    · rw [if_neg hc] at hge; cases hge
  · rintro ⟨e, he, hem, hc⟩
    exact ⟨g e, List.mem_filterMap.mpr ⟨e, he, by rw [if_pos hc]⟩, by rw [hg, hem]⟩

/-- C5: a mode label appears in each of the three returned interpolant maps
iff its (NaN-filtered) branch has at least four sample points
(`arr[1].size > 3`); a mode with a shorter branch is silently absent from
the returned maps — the function is total, no exception path exists. -/
theorem C5_interpolate_membership (sd : List ℝ → List ℝ → ℝ → ℝ) (d : ℝ)
    (result : List (String × List ℝ × List ℝ)) (mode : String) :
    ((∃ x ∈ (interpolate sd d result).1, x.1 = mode) ↔
      ∃ e ∈ result, e.1 = mode ∧ 3 < e.2.2.length) ∧
    ((∃ x ∈ (interpolate sd d result).2.1, x.1 = mode) ↔
      ∃ e ∈ result, e.1 = mode ∧ 3 < e.2.2.length) ∧
    ((∃ x ∈ (interpolate sd d result).2.2, x.1 = mode) ↔
      ∃ e ∈ result, e.1 = mode ∧ 3 < e.2.2.length) := by
  refine ⟨?_, ?_, ?_⟩
  · exact key_mem_filterMap result (fun e => (e.1, e.2.1, e.2.2)) (fun e => rfl) mode
  · exact key_mem_filterMap result
      (fun e => (e.1, e.2.1, vgvals (sd e.2.1 e.2.2) e.2.1 e.2.2)) (fun e => rfl) mode
  · exact key_mem_filterMap result
      (fun e => (e.1, e.2.1, kvals d e.2.1 e.2.2)) (fun e => rfl) mode

/-! ### The SH generator (C8, C9) -/

/-- C8 counterexample: with `number_of_modes = 5` (the repository's own
example configuration), the SH phase-velocity generator produces branches
exactly for the hard-coded orders `1..4`; in particular no `SH0` branch
exists, contradicting the claim that every order in `0..nmodes-1` is
produced. -/
theorem C8_counterexample :
    (sh_phase_branches 1 1 5).map Prod.fst = [1, 2, 3, 4] ∧
    0 ∉ (sh_phase_branches 1 1 5).map Prod.fst := by
  constructor
  · rfl
  · intro h
    rw [show (sh_phase_branches 1 1 5).map Prod.fst = [1, 2, 3, 4] from rfl] at h
    simp at h

/-- C8 amended: the SH phase-velocity generator iterates
`for mode in range(1, 5)`, producing branches exactly for the orders
`1..4` whatever `number_of_modes` is requested; `SH0` is never produced
(so the `vp(SH0, fd) = cS` invariance has no branch to apply to). -/
theorem C8_sh_branch_orders (cS d : ℝ) (number_of_modes : ℕ) :
    (sh_phase_branches cS d number_of_modes).map Prod.fst = [1, 2, 3, 4] := rfl

/-- C9 counterexample: at exactly the cutoff (`m = 1`, `cS = d = 1`,
`omega = π`, so `omega = m·π·cS/d`), the sample is NaN (`none`) — the
argument of the square root is zero, `k = 0`, and the `k == 0` filter
fires — contradicting the claim that `vp` is defined *at* the cutoff. -/
theorem C9_counterexample :
    sh_vp_sample 1 1 1 Real.pi = none ∧ (1 : ℕ) * Real.pi * 1 / 1 ≤ Real.pi := by
  constructor
  · have hA : (Real.pi * 1 / 1) ^ 2 - (((1 : ℕ) : ℝ) * Real.pi) ^ 2 = 0 := by
      push_cast; ring
    simp [sh_vp_sample, hA]
  · norm_num

/-- C9 amended: for positive plate parameters and `omega > 0`, the SH
phase-velocity sample is defined (non-NaN) iff `omega` is *strictly above*
the cutoff `m·π·cS/d` (at or below the cutoff the real part of the complex
square root is zero, the sample is marked NaN); strictly above, the value
is `omega/k` with `k = Re(kh)/d = √((ω·d/cS)² − (m·π)²)/d`. -/
theorem C9_sh_cutoff_strict (cS d omega : ℝ) (m : ℕ)
    (hcS : 0 < cS) (hd : 0 < d) (hw : 0 < omega) :
    ((sh_vp_sample cS d m omega).isSome = true ↔
      (m : ℝ) * Real.pi * cS / d < omega) ∧
    ((m : ℝ) * Real.pi * cS / d < omega →
      sh_vp_sample cS d m omega =
        some (omega /
          (Real.sqrt ((omega * d / cS) ^ 2 - ((m : ℝ) * Real.pi) ^ 2) / d))) := by
  have hmπ : 0 ≤ (m : ℝ) * Real.pi := mul_nonneg (Nat.cast_nonneg m) Real.pi_pos.le
  have hwd : 0 < omega * d / cS := by positivity
  have hstep : ((m : ℝ) * Real.pi * cS / d < omega) ↔
      0 < (omega * d / cS) ^ 2 - ((m : ℝ) * Real.pi) ^ 2 := by
    rw [sub_pos]
    constructor
    · intro hlt
      have h1 : (m : ℝ) * Real.pi < omega * d / cS := by
        rw [lt_div_iff hcS]
        rw [div_lt_iff hd] at hlt
        linarith [hlt]
      exact pow_lt_pow_left h1 hmπ (by norm_num)
    · intro hsq
      have h1 : (m : ℝ) * Real.pi < omega * d / cS :=
        lt_of_pow_lt_pow_left 2 hwd.le hsq
      rw [div_lt_iff hd]
      rw [lt_div_iff hcS] at h1
      linarith [h1]
  constructor
  · rw [hstep]
    unfold sh_vp_sample
    constructor
    · intro hs
      by_contra hA
      push_neg at hA
      have hnone : sh_vp_sample cS d m omega = none := by
        unfold sh_vp_sample
        rcases lt_or_eq_of_le hA with hA0 | hA0
        · rw [if_neg (not_le.mpr hA0), if_pos (zero_div d)]
        · rw [if_pos (le_of_eq hA0.symm), hA0, Real.sqrt_zero, if_pos (zero_div d)]
      have hs' : (sh_vp_sample cS d m omega).isSome = true := hs
      rw [hnone] at hs'
      simp at hs'
    · intro hA
      have hk : 0 < Real.sqrt ((omega * d / cS) ^ 2 - ((m : ℝ) * Real.pi) ^ 2) / d :=
        div_pos (Real.sqrt_pos.mpr hA) hd
      rw [if_pos hA.le, if_neg (by positivity), if_neg (by positivity)]
      rfl
  · intro hlt
    have hA := hstep.mp hlt
    have hk : 0 < Real.sqrt ((omega * d / cS) ^ 2 - ((m : ℝ) * Real.pi) ^ 2) / d :=
      div_pos (Real.sqrt_pos.mpr hA) hd
    unfold sh_vp_sample
    rw [if_pos hA.le, if_neg (by positivity), if_neg (by positivity)]

/-- C9 witness: the amended cutoff characterisation instantiated at
`cS = d = 1`, `m = 0`, `omega = 1`. -/
theorem C9_witness :
    ((sh_vp_sample 1 1 0 1).isSome = true ↔ ((0 : ℕ) : ℝ) * Real.pi * 1 / 1 < 1) ∧
    (((0 : ℕ) : ℝ) * Real.pi * 1 / 1 < 1 →
      sh_vp_sample 1 1 0 1 =
        some (1 / (Real.sqrt ((1 * 1 / 1) ^ 2 - (((0 : ℕ) : ℝ) * Real.pi) ^ 2) / 1))) :=
  C9_sh_cutoff_strict 1 1 1 0 (by norm_num) (by norm_num) (by norm_num)

end DispCalc
